import Mathlib

/-!
Verification development for the jcode multi-agent session/swarm coordination
core. The repository ships only socket clients (integration tests and
benchmarks) of a long-running agent server; the server itself is described by
the specification (sections 2-8). The definitions below are therefore a
shallow embedding of that specified core: the turn engine with soft-interrupt
injection, the swarm directory with coordinator election, the plan
proposal/approval workflow, direct-message validation, swarm-id derivation,
the file-touch conflict detector, and the create_session response shape
consumed by the client scripts.
-/

/-! ## Turn engine: history entries and one turn of processing -/

/-- A tool call issued by the assistant inside one response. -/
structure ToolCall where
  callId : Nat
  name : String
  args : String
deriving Repr, DecidableEq

/-- One entry of a session's conversation history: a user message, an
assistant message (carrying the tool calls it issued), or a tool result
(with a flag marking results synthesized for skipped tools). -/
inductive HMsg where
  | userMsg (content : String)
  | assistantMsg (text : String) (toolCalls : List ToolCall)
  | toolResultMsg (callId : Nat) (output : String) (skipped : Bool)
deriving Repr, DecidableEq

/-- A queued soft interrupt: user-originated content plus its urgency. -/
structure Interrupt where
  content : String
  urgent : Bool
deriving Repr, DecidableEq

/-- Does this history entry carry at least one tool invocation? -/
def isToolUseMsg : HMsg → Bool
  | .assistantMsg _ tcs => !tcs.isEmpty
  | _ => false

/-- Is this history entry a tool result? -/
def isResultMsg : HMsg → Bool
  | .toolResultMsg _ _ _ => true
  | _ => false

/-- Is this history entry a plain user message? -/
def isUserMsg : HMsg → Bool
  | .userMsg _ => true
  | _ => false

/-- Is this history entry an assistant message? -/
def isAssistantMsg : HMsg → Bool
  | .assistantMsg _ _ => true
  | _ => false

/-- The result entry produced by actually executing a tool call. -/
def execTool (exec : ToolCall → String) (tc : ToolCall) : HMsg :=
  .toolResultMsg tc.callId (exec tc) false

/-- The synthesized result entry recorded for a tool call that was skipped
because an urgent interrupt cancelled it before dispatch. -/
def skipTool (tc : ToolCall) : HMsg :=
  .toolResultMsg tc.callId "skipped" true

/-- Modelled from the spec: the missing Turn Engine (spec 4.7), which is not
part of the shipped client scripts. The block of tool results of one turn:
every tool call issued by the assistant receives a matching result.
`dispatched` is the number of tool calls already dispatched at the moment the
queued interrupt is observed: an urgent interrupt cancels the remaining
not-yet-dispatched calls and synthesizes a "skipped" result for each, while a
normal interrupt lets every tool call execute. -/
def turnResults (exec : ToolCall → String) (tcs : List ToolCall)
    (intr : Option Interrupt) (dispatched : Nat) : List HMsg :=
  match intr with
  | some i =>
      if i.urgent then
        (tcs.take dispatched).map (execTool exec) ++ (tcs.drop dispatched).map skipTool
      else
        tcs.map (execTool exec)
  | none => tcs.map (execTool exec)

/-- The user-turn message a queued interrupt is converted into at the
boundary (empty when no interrupt is queued). -/
def turnInjected (intr : Option Interrupt) : List HMsg :=
  match intr with
  | some i => [HMsg.userMsg i.content]
  | none => []

/-- Modelled from the spec: one full turn segment of the Turn Engine —
the in-flight assistant response recorded first, then the tool results,
then the injected interrupt, never in any other interleaving. -/
def runTurn (exec : ToolCall → String) (text : String) (tcs : List ToolCall)
    (intr : Option Interrupt) (dispatched : Nat) : List HMsg :=
  HMsg.assistantMsg text tcs :: turnResults exec tcs intr dispatched ++ turnInjected intr

/-- A history is well paired when no entry carrying a tool invocation is
immediately followed by a non-result entry. -/
def pairedB : List HMsg → Bool
  | [] => true
  | [_] => true
  | a :: b :: rest => (!isToolUseMsg a || isResultMsg b) && pairedB (b :: rest)

/-- Every non-initial user-text entry is immediately preceded by an assistant
entry (the ordering property checked by test_message_order_preserved). -/
def predAssistantB : List HMsg → Bool
  | [] => true
  | [_] => true
  | a :: b :: rest => (!isUserMsg b || isAssistantMsg a) && predAssistantB (b :: rest)

/-- The call ids of the tool results recorded in a history segment. -/
def resultIds (l : List HMsg) : List Nat :=
  l.filterMap fun m =>
    match m with
    | .toolResultMsg cid _ _ => some cid
    | _ => none

/-! ## Swarm directory, coordinator election, messaging -/

/-- Lexicographic comparison of session identifiers as character sequences
(the string ordering used for coordinator election). -/
def charListLe : List Char → List Char → Bool
  | [], _ => true
  | _ :: _, [] => false
  | a :: as, b :: bs =>
    if a < b then true
    else if b < a then false
    else charListLe as bs

/-- String ordering on session identifiers. -/
def sidLe (a b : String) : Bool :=
  charListLe a.data b.data

/-- The minimum of a list of session identifiers under string ordering. -/
def minSid : List String → Option String
  | [] => none
  | s :: rest =>
    match minSid rest with
    | none => some s
    | some t => some (if sidLe s t then s else t)

/-- A live session: its identifier and the swarm it belongs to (derived from
its working directory). -/
structure Session where
  sid : String
  swarm : String
deriving Repr, DecidableEq

/-- Modelled from the spec: the missing Session Registry and Swarm Directory
state (spec 4.1-4.2) — the set of live sessions, each tagged with its swarm. -/
structure ServerState where
  sessions : List Session
deriving Repr, DecidableEq

/-- Current member session identifiers of a swarm, in creation order. -/
def membersOf (st : ServerState) (sw : String) : List String :=
  (st.sessions.filter fun s => s.swarm == sw).map Session.sid

/-- Modelled from the spec: coordinator election (spec 4.2) — a pure
recomputation of the minimum member session identifier by string ordering. -/
def coordinatorOf (st : ServerState) (sw : String) : Option String :=
  minSid (membersOf st sw)

/-- Modelled from the spec: session creation (spec 4.1) appends the new
session to the registry and adds it to its swarm's membership. -/
def createSession (st : ServerState) (sid sw : String) : ServerState :=
  ⟨st.sessions ++ [⟨sid, sw⟩]⟩

/-- Modelled from the spec: session destruction (spec 4.1) removes the
session from the registry and from all swarm membership. -/
def destroySession (st : ServerState) (sid : String) : ServerState :=
  ⟨st.sessions.filter fun s => !(s.sid == sid)⟩

/-- Errors of the coordination core (spec 7). -/
inductive SwarmError where
  | UnknownSession
  | NotInSwarm
  | NotCoordinator
  | NoProposal
  | KeyNotFound
deriving Repr, DecidableEq

/-- Look a session up in the registry. -/
def findSession (st : ServerState) (sid : String) : Option Session :=
  st.sessions.find? fun s => s.sid == sid

/-- A delivered direct message. -/
structure Delivery where
  sender : String
  recipient : String
  body : String
deriving Repr, DecidableEq

/-- Modelled from the spec: the missing Messaging Fabric dm operation
(spec 4.3) — a direct message is delivered only when the recipient is a
current member of the sender's swarm; otherwise it fails with NotInSwarm
(unknown identifiers included) and nothing is delivered. -/
def dm (st : ServerState) (sender recipient body : String) :
    Except SwarmError Delivery :=
  match findSession st sender with
  | none => .error .UnknownSession
  | some s =>
      if recipient ∈ membersOf st s.swarm then
        .ok ⟨sender, recipient, body⟩
      else
        .error .NotInSwarm

/-- The deliveries actually performed by a dm call: none when it fails. -/
def dmDeliveries (st : ServerState) (sender recipient body : String) :
    List Delivery :=
  match dm st sender recipient body with
  | .ok d => [d]
  | .error _ => []

/-! ## Shared context store and plan coordination -/

/-- One unit of work in the swarm's shared plan. -/
structure PlanItem where
  itemId : String
  content : String
  status : String
  priority : String
deriving Repr, DecidableEq

/-- A value held by the shared context store: arbitrary shared state, or a
serialized list of candidate plan items (a plan proposal). -/
inductive CtxValue where
  | vstr (s : String)
  | vitems (items : List PlanItem)
deriving Repr, DecidableEq

/-- Modelled from the spec: per-swarm coordination state (spec 3) — the
membership, the ordered plan, its monotonic version counter, and the shared
context store. -/
structure SwarmState where
  members : List String
  plan : List PlanItem
  planVersion : Nat
  ctx : List (String × CtxValue)
deriving Repr, DecidableEq

/-- The coordinator of a swarm state: minimum member id by string ordering. -/
def swarmCoordinator (st : SwarmState) : Option String :=
  minSid st.members

/-- Read a key of the shared context store. -/
def ctxGet (st : SwarmState) (key : String) : Option CtxValue :=
  (st.ctx.find? fun kv => kv.1 == key).map Prod.snd

/-- Write a key of the shared context store (last writer wins). -/
def ctxSet (st : SwarmState) (key : String) (v : CtxValue) : SwarmState :=
  { st with ctx := (key, v) :: st.ctx.filter fun kv => !(kv.1 == key) }

/-- Delete a key of the shared context store. -/
def ctxDelete (st : SwarmState) (key : String) : SwarmState :=
  { st with ctx := st.ctx.filter fun kv => !(kv.1 == key) }

/-- The reserved context key holding a session's plan proposal. -/
def proposalKey (proposer : String) : String :=
  "plan_proposal:" ++ proposer

/-- Modelled from the spec: propose (spec 4.5) writes the candidate items
under the reserved key. -/
def proposePlan (st : SwarmState) (proposer : String) (items : List PlanItem) :
    SwarmState :=
  ctxSet st (proposalKey proposer) (.vitems items)

/-- Modelled from the spec: approve (spec 4.5). Fails with NotCoordinator
unless the caller is the coordinator; fails with NoProposal when the reserved
key holds no proposal; on success atomically appends the proposed items to
the plan preserving order, increments the plan version, and deletes the
proposal entry. Returns the new state with items_added and plan_version. -/
def approvePlan (st : SwarmState) (caller proposer : String) :
    Except SwarmError (SwarmState × Nat × Nat) :=
  if swarmCoordinator st = some caller then
    match ctxGet st (proposalKey proposer) with
    | some (.vitems items) =>
        .ok ({ ctxDelete st (proposalKey proposer) with
                 plan := st.plan ++ items,
                 planVersion := st.planVersion + 1 },
             items.length, st.planVersion + 1)
    | _ => .error .NoProposal
  else
    .error .NotCoordinator

/-- Modelled from the spec: reject (spec 4.5). Same coordinator gate; deletes
the proposal entry without modifying the plan or its version. -/
def rejectPlan (st : SwarmState) (caller proposer reason : String) :
    Except SwarmError (SwarmState × String) :=
  if swarmCoordinator st = some caller then
    match ctxGet st (proposalKey proposer) with
    | some (.vitems _) => .ok (ctxDelete st (proposalKey proposer), reason)
    | _ => .error .NoProposal
  else
    .error .NotCoordinator

/-- Outcome of a successful approval: the plan grows by the number of
proposed items and the plan version increments by exactly one. -/
def approveOutcome (st st' : SwarmState) (n : Nat) : Prop :=
  st'.plan.length = st.plan.length + n ∧ st'.planVersion = st.planVersion + 1

/-- Outcome of a rejection: the plan and its version are unchanged. -/
def rejectOutcome (st st' : SwarmState) : Prop :=
  st'.plan = st.plan ∧ st'.planVersion = st.planVersion

/-- The swarm state after an approve call: unchanged when the call fails. -/
def applyApprove (st : SwarmState) (caller proposer : String) : SwarmState :=
  match approvePlan st caller proposer with
  | .ok (st', _) => st'
  | .error _ => st

/-- The swarm state after a reject call: unchanged when the call fails. -/
def applyReject (st : SwarmState) (caller proposer reason : String) : SwarmState :=
  match rejectPlan st caller proposer reason with
  | .ok (st', _) => st'
  | .error _ => st

/-! ## Swarm id derivation -/

/-- Modelled from the spec: swarm_id_for (spec 4.2) walks upward from the
given path looking for a version-control root; paths are component lists and
`roots` is the set of directories that are git repository roots. -/
def findGitRoot (roots : List (List String)) (p : List String) :
    Option (List String) :=
  if p ∈ roots then some p
  else if h : p = [] then none
  else findGitRoot roots p.dropLast
termination_by p.length
decreasing_by
  have hpos : 0 < p.length := List.length_pos.mpr h
  have hdl : p.dropLast.length = p.length - 1 := List.length_dropLast p
  omega

/-- Canonicalize a raw path: drop empty and current-directory components. -/
def canonicalizePath (p : List String) : List String :=
  p.filter fun c => !(c == ".") && !(c == "")

/-- The derived swarm identifier: from repository identity when a git root
was found, from the canonicalized raw path otherwise. -/
inductive SwarmId where
  | gitRepo (root : List String)
  | rawPath (path : List String)
deriving Repr, DecidableEq

/-- The path components a swarm identifier is built from. -/
def swarmIdComponents : SwarmId → List String
  | .gitRepo r => r
  | .rawPath q => q

/-- Modelled from the spec: swarm_id_for (spec 4.2) — derive the id from the
repository identity when a version-control root is found above the path, and
from the canonicalized raw path with is_git_repo=false otherwise. -/
def swarmIdFor (roots : List (List String)) (p : List String) :
    SwarmId × Bool :=
  match findGitRoot roots p with
  | some r => (.gitRepo r, true)
  | none => (.rawPath (canonicalizePath p), false)

/-! ## File-touch ledger and conflict detection -/

/-- A recorded access of a filesystem path by a session. -/
structure TouchRecord where
  session : String
  path : String
  timestamp : Nat
  kind : String
deriving Repr, DecidableEq

/-- A derived conflict: a normalized path plus the full ordered access
history of every touch of that path. -/
structure ConflictGroup where
  path : String
  accesses : List TouchRecord
deriving Repr, DecidableEq

/-- First-occurrence deduplication, preserving order. -/
def dedupFirst : List String → List String
  | [] => []
  | x :: xs => x :: dedupFirst (xs.filter fun y => !(y == x))
termination_by l => l.length
decreasing_by
  simp only [List.length_cons]
  exact Nat.lt_succ_of_le (List.length_filter_le _ _)

/-- All touches of one normalized path, in ledger order. -/
def touchesFor (norm : String → String) (ts : List TouchRecord) (p : String) :
    List TouchRecord :=
  ts.filter fun t => norm t.path == p

/-- The distinct sessions appearing in a list of touches. -/
def sessionsOf (ts : List TouchRecord) : List String :=
  dedupFirst (ts.map TouchRecord.session)

/-- Modelled from the spec: the conflicts query (spec 4.6) — group the touch
ledger by normalized path and keep exactly the groups whose accesses come
from at least two distinct sessions, each group carrying its full ordered
access history. -/
def conflictGroupFor (norm : String → String) (ts : List TouchRecord)
    (p : String) : Option ConflictGroup :=
  if 2 ≤ (sessionsOf (touchesFor norm ts p)).length
  then some ⟨p, touchesFor norm ts p⟩ else none

/-- The conflicts query assembled per normalized path. -/
def conflictsOf (norm : String → String) (ts : List TouchRecord) :
    List ConflictGroup :=
  (dedupFirst (ts.map fun t => norm t.path)).filterMap (conflictGroupFor norm ts)

/-! ## Debug protocol: create_session response and its clients -/

/-- A JSON value, restricted to the shapes the create_session response
exercises. -/
inductive JVal where
  | jstr (s : String)
  | jobj (fields : List (String × JVal))
deriving Repr

/-- Look a key up in a JSON object's field list. -/
def jlookup (fields : List (String × JVal)) (key : String) : Option JVal :=
  (fields.find? fun kv => kv.1 == key).map Prod.snd

/-- A debug-protocol response: ok flag and the output payload. -/
structure DebugResponse where
  ok : Bool
  output : List (String × JVal)
deriving Repr

/-- Modelled from the spec: the create_session debug command handler
(spec 4.1, 6) — creates the session, registers it with its swarm, and
answers ok=true with an output object whose session_id field is the new
session's identifier; a friendly_name field may or may not be present. -/
def handleCreateSession (st : ServerState) (sid sw : String)
    (friendlyName : Option String) : ServerState × DebugResponse :=
  (createSession st sid sw,
   { ok := true,
     output := ("session_id", .jstr sid) ::
       (match friendlyName with
        | some fn => [("friendly_name", .jstr fn)]
        | none => []) })

/-- Embedded from scripts/benchmark_swarm.py create_session (and the
identical fallback in scripts/benchmark_takehome.py): the client returns
the session_id together with friendly_name when present, else the first 12
characters of the session_id. -/
def clientSessionName (sessionId : String) (friendlyName : Option String) :
    String × String :=
  (sessionId, friendlyName.getD ⟨sessionId.data.take 12⟩)

/-! ## Helper lemmas: turn engine -/

theorem pairedB_cons_cons (a b : HMsg) (rest : List HMsg) :
    pairedB (a :: b :: rest) = ((!isToolUseMsg a || isResultMsg b) && pairedB (b :: rest)) :=
  rfl

theorem isResultMsg_not_toolUse (m : HMsg) (h : isResultMsg m = true) :
    isToolUseMsg m = false := by
  cases m <;> simp_all [isResultMsg, isToolUseMsg]

theorem isResultMsg_not_user (m : HMsg) (h : isResultMsg m = true) :
    isUserMsg m = false := by
  cases m <;> simp_all [isResultMsg, isUserMsg]

theorem turnResults_all_result (exec : ToolCall → String) (tcs : List ToolCall)
    (intr : Option Interrupt) (k : Nat) :
    ∀ x ∈ turnResults exec tcs intr k, isResultMsg x = true := by
  intro x hx
  unfold turnResults at hx
  rcases intr with _ | i
  · simp only [List.mem_map] at hx
    obtain ⟨tc, _, rfl⟩ := hx
    rfl
  · by_cases hu : i.urgent = true
    · simp only [hu, if_true, List.mem_append, List.mem_map] at hx
      rcases hx with ⟨tc, _, rfl⟩ | ⟨tc, _, rfl⟩ <;> rfl
    · simp only [hu, if_false, Bool.false_eq_true, List.mem_map] at hx
      obtain ⟨tc, _, rfl⟩ := hx
      rfl

theorem turnResults_length (exec : ToolCall → String) (tcs : List ToolCall)
    (i : Interrupt) (k : Nat) :
    (turnResults exec tcs (some i) k).length = tcs.length := by
  unfold turnResults
  by_cases hu : i.urgent = true
  · simp only [hu, if_true, List.length_append, List.length_map,
      List.length_take, List.length_drop]
    omega
  · simp [hu]

theorem pairedB_cons_results (rs : List HMsg) :
    (∀ x ∈ rs, isResultMsg x = true) →
    ∀ (a u : HMsg), isToolUseMsg u = false → rs ≠ [] →
      pairedB (a :: rs ++ [u]) = true := by
  induction rs with
  | nil => intro _ a u _ hne; exact absurd rfl hne
  | cons r t ih =>
      intro hrs a u hu _
      have hr : isResultMsg r = true := hrs r (List.mem_cons_self r t)
      cases t with
      | nil =>
          simp only [List.cons_append, List.nil_append, pairedB_cons_cons, pairedB,
            Bool.and_eq_true, Bool.or_eq_true]
          refine ⟨Or.inr hr, Or.inl ?_, trivial⟩
          simp [isResultMsg_not_toolUse r hr]
      | cons r2 t2 =>
          have ih2 := ih (fun x hx => hrs x (List.mem_cons_of_mem r hx)) r u hu
            (by simp)
          simp only [List.cons_append] at ih2 ⊢
          rw [pairedB_cons_cons, Bool.and_eq_true]
          exact ⟨by simp [hr], ih2⟩

theorem pairedB_append : ∀ (l1 l2 : List HMsg), pairedB l1 = true → pairedB l2 = true →
    (∀ x, l1.getLast? = some x → isToolUseMsg x = false) →
    pairedB (l1 ++ l2) = true
  | [], l2, _, h2, _ => by simpa using h2
  | [a], l2, _, h2, hl => by
      cases l2 with
      | nil => rfl
      | cons b r =>
          have ha : isToolUseMsg a = false := hl a rfl
          rw [List.singleton_append, pairedB_cons_cons, Bool.and_eq_true]
          exact ⟨by simp [ha], h2⟩
  | a :: b :: t, l2, h1, h2, hl => by
      rw [pairedB_cons_cons, Bool.and_eq_true] at h1
      have hrec := pairedB_append (b :: t) l2 h1.2 h2
        (fun x hx => hl x (by rw [List.getLast?_cons_cons]; exact hx))
      simp only [List.cons_append] at hrec ⊢
      rw [pairedB_cons_cons, Bool.and_eq_true]
      exact ⟨h1.1, hrec⟩

theorem turnInjected_some (i : Interrupt) :
    turnInjected (some i) = [HMsg.userMsg i.content] := rfl

theorem pairedB_runTurn (exec : ToolCall → String) (text : String)
    (tcs : List ToolCall) (i : Interrupt) (k : Nat) :
    pairedB (runTurn exec text tcs (some i) k) = true := by
  unfold runTurn
  rw [turnInjected_some]
  cases htcs : tcs with
  | nil =>
      have hres : turnResults exec [] (some i) k = [] := by
        unfold turnResults
        by_cases hu : i.urgent = true <;> simp [hu]
      rw [hres]
      rfl
  | cons tc rest =>
      have hne : turnResults exec (tc :: rest) (some i) k ≠ [] := by
        intro hempty
        have hlen := turnResults_length exec (tc :: rest) i k
        rw [hempty] at hlen
        simp at hlen
      exact pairedB_cons_results (turnResults exec (tc :: rest) (some i) k)
        (turnResults_all_result exec (tc :: rest) (some i) k)
        (HMsg.assistantMsg text (tc :: rest)) (HMsg.userMsg i.content) rfl hne

theorem results_before_injected (a u : HMsg) (rs : List HMsg)
    (hrs_user : ∀ x ∈ rs, isUserMsg x = false)
    (ha : isUserMsg a = false)
    (hu : isResultMsg u = false) :
    ∀ jr ju (hjr : jr < (a :: rs ++ [u]).length) (hju : ju < (a :: rs ++ [u]).length),
      isResultMsg ((a :: rs ++ [u])[jr]) = true →
      isUserMsg ((a :: rs ++ [u])[ju]) = true → jr < ju := by
  intro jr ju hjr hju hres huser
  have hlen : (a :: rs ++ [u]).length = rs.length + 2 := by simp
  have hju_eq : ju = rs.length + 1 := by
    rcases ju with _ | jm
    · have huser0 : isUserMsg a = true := huser
      rw [ha] at huser0
      exact absurd huser0 (by simp)
    · have hjm : jm < rs.length + 1 := by
        rw [hlen] at hju
        omega
      have hjm2 : jm < (rs ++ [u]).length := by
        simp only [List.length_append, List.length_singleton]
        omega
      have huser1 : isUserMsg ((rs ++ [u])[jm]) = true := huser
      rcases Nat.lt_or_ge jm rs.length with hlt | hge
      · rw [List.getElem_append_left hlt] at huser1
        have hmem : rs[jm] ∈ rs := List.getElem_mem hlt
        have hfalse := hrs_user _ hmem
        rw [huser1] at hfalse
        exact absurd hfalse (by simp)
      · omega
  have hjr_ne : jr ≠ rs.length + 1 := by
    intro heq
    subst heq
    have hlenru : rs.length < (rs ++ [u]).length := by
      simp only [List.length_append, List.length_singleton]
      omega
    have hres1 : isResultMsg ((rs ++ [u])[rs.length]) = true := hres
    have hgu : (rs ++ [u])[rs.length] = u := by simp
    rw [hgu] at hres1
    rw [hres1] at hu
    exact absurd hu (by simp)
  rw [hlen] at hjr
  omega

theorem resultIds_append (l1 l2 : List HMsg) :
    resultIds (l1 ++ l2) = resultIds l1 ++ resultIds l2 :=
  List.filterMap_append l1 l2 _

theorem resultIds_exec_map (exec : ToolCall → String) (l : List ToolCall) :
    resultIds (l.map (execTool exec)) = l.map ToolCall.callId := by
  induction l with
  | nil => rfl
  | cons a t ih => simp [resultIds, List.filterMap_cons, execTool] at ih ⊢; exact ih

theorem resultIds_skip_map (l : List ToolCall) :
    resultIds (l.map skipTool) = l.map ToolCall.callId := by
  induction l with
  | nil => rfl
  | cons a t ih => simp [resultIds, List.filterMap_cons, skipTool] at ih ⊢; exact ih

/-- C1: for every turn containing at least one tool call and a queued soft
interrupt, the interrupt is converted into a user-turn message only at a
tool-call boundary: the resulting conversation history never contains a
tool-use entry followed immediately by a non-result message, and the index of
the injected interrupt user message is at least the index of every
tool-result of that turn (so in particular of the last one). -/
theorem interrupt_injected_only_at_tool_boundary
    (hist : List HMsg) (exec : ToolCall → String) (text : String)
    (tcs : List ToolCall) (i : Interrupt) (k : Nat) (out : List HMsg)
    (hout : out = runTurn exec text tcs (some i) k)
    (hne : tcs ≠ [])
    (hh : pairedB hist = true)
    (hlast : hist.getLast?.all (fun x => !isToolUseMsg x) = true) :
    pairedB (hist ++ out) = true ∧
    ∀ jr ju (hjr : jr < out.length) (hju : ju < out.length),
      isResultMsg out[jr] = true → isUserMsg out[ju] = true → jr < ju := by
  subst hout
  constructor
  · refine pairedB_append hist _ hh (pairedB_runTurn exec text tcs i k) ?_
    intro x hx
    rw [hx] at hlast
    simpa using hlast
  · intro jr ju hjr hju hres huser
    exact results_before_injected (HMsg.assistantMsg text tcs)
      (HMsg.userMsg i.content) (turnResults exec tcs (some i) k)
      (fun x hx => isResultMsg_not_user x (turnResults_all_result exec tcs (some i) k x hx))
      rfl rfl jr ju hjr hju hres huser

theorem interrupt_injected_only_at_tool_boundary_witness :
    pairedB ([HMsg.userMsg "run it"] ++
      [HMsg.assistantMsg "sure" [⟨7, "bash", "echo hi"⟩],
       HMsg.toolResultMsg 7 "done" false, HMsg.userMsg "note this"]) = true ∧
    ∀ jr ju
      (hjr : jr < ([HMsg.assistantMsg "sure" [⟨7, "bash", "echo hi"⟩],
        HMsg.toolResultMsg 7 "done" false, HMsg.userMsg "note this"] : List HMsg).length)
      (hju : ju < ([HMsg.assistantMsg "sure" [⟨7, "bash", "echo hi"⟩],
        HMsg.toolResultMsg 7 "done" false, HMsg.userMsg "note this"] : List HMsg).length),
      isResultMsg ([HMsg.assistantMsg "sure" [⟨7, "bash", "echo hi"⟩],
        HMsg.toolResultMsg 7 "done" false, HMsg.userMsg "note this"] : List HMsg)[jr] = true →
      isUserMsg ([HMsg.assistantMsg "sure" [⟨7, "bash", "echo hi"⟩],
        HMsg.toolResultMsg 7 "done" false, HMsg.userMsg "note this"] : List HMsg)[ju] = true →
      jr < ju :=
  interrupt_injected_only_at_tool_boundary [HMsg.userMsg "run it"] (fun _ => "done")
    "sure" [⟨7, "bash", "echo hi"⟩] ⟨"note this", false⟩ 0 _ rfl (by decide)
    (by decide) (by decide)

/-- C4 counterexample: in a turn with one tool call and a queued interrupt,
the injected interrupt user message is immediately preceded by the tool
result, not by an assistant message, so the claim that the interrupt's
immediate predecessor in history is always an assistant message fails at this
concrete input. -/
theorem assistant_before_interrupt_counterexample :
    runTurn (fun _ => "ok") "reading" [⟨3, "bash", "cat f"⟩]
        (some ⟨"interrupt now", false⟩) 0 =
      [HMsg.assistantMsg "reading" [⟨3, "bash", "cat f"⟩],
       HMsg.toolResultMsg 3 "ok" false,
       HMsg.userMsg "interrupt now"] ∧
    predAssistantB
      [HMsg.assistantMsg "reading" [⟨3, "bash", "cat f"⟩],
       HMsg.toolResultMsg 3 "ok" false,
       HMsg.userMsg "interrupt now"] = false :=
  ⟨rfl, rfl⟩

/-- C4 amended: when an interrupt is queued while a turn is in flight, the
in-flight assistant message is recorded first and the injected interrupt user
message last, at a strictly greater index; its immediate predecessor is the
assistant message itself when the turn issued no tool calls, and otherwise a
tool result of that turn. -/
theorem assistant_recorded_before_interrupt
    (exec : ToolCall → String) (text : String) (tcs : List ToolCall)
    (i : Interrupt) (k : Nat) (out : List HMsg)
    (hout : out = runTurn exec text tcs (some i) k) :
    out.length = tcs.length + 2 ∧
    out.head? = some (HMsg.assistantMsg text tcs) ∧
    out[tcs.length + 1]? = some (HMsg.userMsg i.content) ∧
    out.getLast? = some (HMsg.userMsg i.content) ∧
    (tcs = [] → out = [HMsg.assistantMsg text tcs, HMsg.userMsg i.content]) ∧
    (tcs ≠ [] → ∀ m, out[tcs.length]? = some m → isResultMsg m = true) := by
  subst hout
  have hrlen := turnResults_length exec tcs i k
  refine ⟨?_, rfl, ?_, ?_, ?_, ?_⟩
  · unfold runTurn
    rw [turnInjected_some]
    simp [hrlen]
  · unfold runTurn
    rw [turnInjected_some]
    show ((HMsg.assistantMsg text tcs :: turnResults exec tcs (some i) k) ++
      [HMsg.userMsg i.content])[tcs.length + 1]? = some (HMsg.userMsg i.content)
    have hltot : (HMsg.assistantMsg text tcs :: turnResults exec tcs (some i) k).length =
        tcs.length + 1 := by
      simp [hrlen]
    rw [List.getElem?_append_right (le_of_eq hltot), hltot]
    simp
  · unfold runTurn
    rw [turnInjected_some]
    show ((HMsg.assistantMsg text tcs :: turnResults exec tcs (some i) k) ++
      [HMsg.userMsg i.content]).getLast? = some (HMsg.userMsg i.content)
    exact List.getLast?_concat _
  · intro htcs
    subst htcs
    unfold runTurn turnResults
    rw [turnInjected_some]
    by_cases hu : i.urgent = true <;> simp [hu]
  · intro htcs m hm
    unfold runTurn at hm
    rw [turnInjected_some] at hm
    obtain ⟨tc0, rest, rfl⟩ : ∃ tc0 rest, tcs = tc0 :: rest := by
      cases tcs with
      | nil => exact absurd rfl htcs
      | cons x xs => exact ⟨x, xs, rfl⟩
    have hm2 : ((HMsg.assistantMsg text (tc0 :: rest) ::
        turnResults exec (tc0 :: rest) (some i) k) ++
        [HMsg.userMsg i.content])[rest.length + 1]? = some m := hm
    rw [List.cons_append, List.getElem?_cons_succ] at hm2
    have hlt : rest.length < (turnResults exec (tc0 :: rest) (some i) k).length := by
      rw [hrlen]
      simp
    rw [List.getElem?_append_left hlt] at hm2
    exact turnResults_all_result exec (tc0 :: rest) (some i) k m (List.getElem?_mem hm2)

theorem assistant_recorded_before_interrupt_witness :
    ([HMsg.assistantMsg "haiku about code" [], HMsg.userMsg "also debugging"] :
        List HMsg).length = ([] : List ToolCall).length + 2 ∧
    ([HMsg.assistantMsg "haiku about code" [], HMsg.userMsg "also debugging"] :
        List HMsg).head? = some (HMsg.assistantMsg "haiku about code" []) ∧
    ([HMsg.assistantMsg "haiku about code" [], HMsg.userMsg "also debugging"] :
        List HMsg)[([] : List ToolCall).length + 1]? = some (HMsg.userMsg "also debugging") ∧
    ([HMsg.assistantMsg "haiku about code" [], HMsg.userMsg "also debugging"] :
        List HMsg).getLast? = some (HMsg.userMsg "also debugging") ∧
    (([] : List ToolCall) = [] →
      ([HMsg.assistantMsg "haiku about code" [], HMsg.userMsg "also debugging"] :
        List HMsg) =
        [HMsg.assistantMsg "haiku about code" [], HMsg.userMsg "also debugging"]) ∧
    (([] : List ToolCall) ≠ [] → ∀ m,
      ([HMsg.assistantMsg "haiku about code" [], HMsg.userMsg "also debugging"] :
        List HMsg)[([] : List ToolCall).length]? = some m → isResultMsg m = true) :=
  assistant_recorded_before_interrupt (fun _ => "poem") "haiku about code" []
    ⟨"also debugging", false⟩ 0 _ rfl

/-- C5: for every turn in which an urgent interrupt is queued, every
remaining not-yet-dispatched tool call is not executed but receives a
synthesized skipped tool-result; every tool call issued by the turn still has
a matching result (the recorded result call ids are exactly the issued call
ids, in order), and the interrupt is injected as the next user turn, with the
pairing invariant intact. -/
theorem urgent_interrupt_skips_remaining_tools
    (exec : ToolCall → String) (text : String) (tcs : List ToolCall)
    (i : Interrupt) (k : Nat) (out : List HMsg)
    (hout : out = runTurn exec text tcs (some i) k)
    (hurg : i.urgent = true) :
    resultIds out = tcs.map ToolCall.callId ∧
    (∀ tc ∈ tcs.drop k, skipTool tc ∈ out) ∧
    out.getLast? = some (HMsg.userMsg i.content) ∧
    pairedB out = true := by
  subst hout
  have hres : turnResults exec tcs (some i) k =
      (tcs.take k).map (execTool exec) ++ (tcs.drop k).map skipTool := by
    unfold turnResults
    simp [hurg]
  refine ⟨?_, ?_, ?_, pairedB_runTurn exec text tcs i k⟩
  · unfold runTurn
    rw [turnInjected_some, hres]
    show resultIds ((HMsg.assistantMsg text tcs :: ((tcs.take k).map (execTool exec) ++
      (tcs.drop k).map skipTool)) ++ [HMsg.userMsg i.content]) = tcs.map ToolCall.callId
    rw [resultIds_append]
    have h1 : resultIds (HMsg.assistantMsg text tcs :: ((tcs.take k).map (execTool exec) ++
        (tcs.drop k).map skipTool)) = resultIds ((tcs.take k).map (execTool exec) ++
        (tcs.drop k).map skipTool) := rfl
    rw [h1, resultIds_append, resultIds_exec_map, resultIds_skip_map]
    have h2 : resultIds [HMsg.userMsg i.content] = [] := rfl
    rw [h2, List.append_nil, ← List.map_append, List.take_append_drop]
  · intro tc htc
    unfold runTurn
    rw [turnInjected_some, hres]
    exact List.mem_cons_of_mem _ (List.mem_append_left _
      (List.mem_append_right _ (List.mem_map_of_mem skipTool htc)))
  · unfold runTurn
    rw [turnInjected_some]
    show ((HMsg.assistantMsg text tcs :: turnResults exec tcs (some i) k) ++
      [HMsg.userMsg i.content]).getLast? = some (HMsg.userMsg i.content)
    exact List.getLast?_concat _

theorem urgent_interrupt_skips_remaining_tools_witness :
    resultIds [HMsg.assistantMsg "t" [⟨1, "bash", "a"⟩, ⟨2, "bash", "b"⟩],
        HMsg.toolResultMsg 1 "ran" false, HMsg.toolResultMsg 2 "skipped" true,
        HMsg.userMsg "stop"] =
      ([⟨1, "bash", "a"⟩, ⟨2, "bash", "b"⟩] : List ToolCall).map ToolCall.callId ∧
    (∀ tc ∈ ([⟨1, "bash", "a"⟩, ⟨2, "bash", "b"⟩] : List ToolCall).drop 1,
      skipTool tc ∈ [HMsg.assistantMsg "t" [⟨1, "bash", "a"⟩, ⟨2, "bash", "b"⟩],
        HMsg.toolResultMsg 1 "ran" false, HMsg.toolResultMsg 2 "skipped" true,
        HMsg.userMsg "stop"]) ∧
    ([HMsg.assistantMsg "t" [⟨1, "bash", "a"⟩, ⟨2, "bash", "b"⟩],
        HMsg.toolResultMsg 1 "ran" false, HMsg.toolResultMsg 2 "skipped" true,
        HMsg.userMsg "stop"] : List HMsg).getLast? = some (HMsg.userMsg "stop") ∧
    pairedB [HMsg.assistantMsg "t" [⟨1, "bash", "a"⟩, ⟨2, "bash", "b"⟩],
        HMsg.toolResultMsg 1 "ran" false, HMsg.toolResultMsg 2 "skipped" true,
        HMsg.userMsg "stop"] = true :=
  urgent_interrupt_skips_remaining_tools (fun _ => "ran") "t"
    [⟨1, "bash", "a"⟩, ⟨2, "bash", "b"⟩] ⟨"stop", true⟩ 1 _ rfl rfl

/-! ## Helper lemmas: string ordering and coordinator election -/

theorem charListLe_refl : ∀ l : List Char, charListLe l l = true
  | [] => rfl
  | a :: as => by
      unfold charListLe
      simp [lt_irrefl, charListLe_refl as]

theorem charListLe_total : ∀ l m : List Char,
    charListLe l m = true ∨ charListLe m l = true
  | [], _ => Or.inl rfl
  | _ :: _, [] => Or.inr rfl
  | a :: as, b :: bs => by
      rcases lt_trichotomy a b with hab | hab | hab
      · left
        unfold charListLe
        simp [hab]
      · subst hab
        rcases charListLe_total as bs with h | h
        · left
          unfold charListLe
          simp [lt_irrefl, h]
        · right
          unfold charListLe
          simp [lt_irrefl, h]
      · right
        unfold charListLe
        simp [hab]

theorem charListLe_trans : ∀ l m n : List Char, charListLe l m = true →
    charListLe m n = true → charListLe l n = true
  | [], _, _, _, _ => rfl
  | _ :: _, [], _, h1, _ => by simp [charListLe] at h1
  | _ :: _, _ :: _, [], _, h2 => by simp [charListLe] at h2
  | a :: as, b :: bs, c :: cs, h1, h2 => by
      unfold charListLe at h1 h2 ⊢
      by_cases hab : a < b
      · by_cases hbc : b < c
        · simp [lt_trans hab hbc]
        · by_cases hcb : c < b
          · simp [hbc, hcb] at h2
          · have hbceq : b = c := le_antisymm (not_lt.mp hcb) (not_lt.mp hbc)
            subst hbceq
            simp [hab]
      · by_cases hba : b < a
        · simp [hab, hba] at h1
        · have habeq : a = b := le_antisymm (not_lt.mp hba) (not_lt.mp hab)
          subst habeq
          simp only [lt_irrefl, if_false] at h1
          by_cases hac : a < c
          · simp [hac]
          · by_cases hca : c < a
            · simp [hac, hca] at h2
            · have haceq : a = c := le_antisymm (not_lt.mp hca) (not_lt.mp hac)
              subst haceq
              simp only [lt_irrefl, if_false] at h2 ⊢
              exact charListLe_trans as bs cs h1 h2

theorem sidLe_refl (s : String) : sidLe s s = true :=
  charListLe_refl s.data

theorem sidLe_total (a b : String) : sidLe a b = true ∨ sidLe b a = true :=
  charListLe_total a.data b.data

theorem sidLe_trans (a b c : String) (h1 : sidLe a b = true)
    (h2 : sidLe b c = true) : sidLe a c = true :=
  charListLe_trans a.data b.data c.data h1 h2

theorem minSid_eq_none : ∀ l : List String, minSid l = none → l = []
  | [], _ => rfl
  | s :: rest, h => by
      unfold minSid at h
      cases hm : minSid rest with
      | none => rw [hm] at h; simp at h
      | some t => rw [hm] at h; simp at h

theorem minSid_spec : ∀ (l : List String) (c : String), minSid l = some c →
    c ∈ l ∧ ∀ m ∈ l, sidLe c m = true
  | [], c, h => by simp [minSid] at h
  | s :: rest, c, h => by
      unfold minSid at h
      cases hm : minSid rest with
      | none =>
          rw [hm] at h
          have hrest : rest = [] := minSid_eq_none rest hm
          subst hrest
          simp only [Option.some.injEq] at h
          subst h
          refine ⟨List.mem_cons_self _ _, ?_⟩
          intro m hm2
          simp only [List.mem_cons, List.not_mem_nil, or_false] at hm2
          subst hm2
          exact sidLe_refl m
      | some t =>
          rw [hm] at h
          simp only [Option.some.injEq] at h
          obtain ⟨ht_mem, ht_le⟩ := minSid_spec rest t hm
          by_cases hst : sidLe s t = true
          · rw [if_pos hst] at h
            subst h
            refine ⟨List.mem_cons_self _ _, ?_⟩
            intro m hm2
            rcases List.mem_cons.mp hm2 with rfl | hm3
            · exact sidLe_refl m
            · exact sidLe_trans _ t m hst (ht_le m hm3)
          · rw [if_neg hst] at h
            subst h
            refine ⟨List.mem_cons_of_mem s ht_mem, ?_⟩
            intro m hm2
            rcases List.mem_cons.mp hm2 with rfl | hm3
            · rcases sidLe_total m t with hh | hh
              · exact absurd hh hst
              · exact hh
            · exact ht_le m hm3

theorem membersOf_create (st : ServerState) (sid sw : String) :
    membersOf (createSession st sid sw) sw = membersOf st sw ++ [sid] := by
  unfold membersOf createSession
  rw [List.filter_append]
  simp

theorem membersOf_destroy (st : ServerState) (x sw : String) :
    membersOf (destroySession st x) sw =
      (membersOf st sw).filter fun s => !(s == x) := by
  unfold membersOf destroySession
  dsimp only
  rw [List.filter_comm, List.filter_map]
  rfl

/-- C2: at every observation point the coordinator of a swarm is the minimum
member session identifier under string ordering; creating sessions A then B
(ids in creation order) in a fresh directory makes A the coordinator, and
destroying A makes the next-lowest remaining member B the coordinator
immediately. -/
theorem coordinator_is_min_member
    (st : ServerState) (sw A B : String)
    (hempty : membersOf st sw = [])
    (hAB : sidLe A B = true) (hne : A ≠ B) :
    (∀ (st2 : ServerState) (sw2 c : String),
        coordinatorOf st2 sw2 = some c →
        c ∈ membersOf st2 sw2 ∧ ∀ m ∈ membersOf st2 sw2, sidLe c m = true) ∧
    coordinatorOf (createSession (createSession st A sw) B sw) sw = some A ∧
    coordinatorOf (destroySession (createSession (createSession st A sw) B sw) A) sw
      = some B := by
  have hmem2 : membersOf (createSession (createSession st A sw) B sw) sw = [A, B] := by
    rw [membersOf_create, membersOf_create, hempty]
    rfl
  refine ⟨fun st2 sw2 c h => minSid_spec (membersOf st2 sw2) c h, ?_, ?_⟩
  · unfold coordinatorOf
    rw [hmem2]
    simp [minSid, hAB]
  · unfold coordinatorOf
    rw [membersOf_destroy, hmem2]
    have hBA : (B == A) = false := beq_eq_false_iff_ne.mpr (Ne.symm hne)
    have hfil : ([A, B].filter fun s => !(s == A)) = [B] := by
      simp [List.filter, hBA]
    rw [hfil]
    rfl

theorem coordinator_is_min_member_witness :
    (∀ (st2 : ServerState) (sw2 c : String),
        coordinatorOf st2 sw2 = some c →
        c ∈ membersOf st2 sw2 ∧ ∀ m ∈ membersOf st2 sw2, sidLe c m = true) ∧
    coordinatorOf (createSession (createSession ⟨[]⟩ "sess-a" "swarm-d") "sess-b"
      "swarm-d") "swarm-d" = some "sess-a" ∧
    coordinatorOf (destroySession (createSession (createSession ⟨[]⟩ "sess-a"
      "swarm-d") "sess-b" "swarm-d") "sess-a") "swarm-d" = some "sess-b" :=
  coordinator_is_min_member ⟨[]⟩ "swarm-d" "sess-a" "sess-b" rfl (by decide)
    (by decide)

/-! ## Helper lemmas: plan coordination -/

theorem ctxGet_ctxDelete (st : SwarmState) (key : String) :
    ctxGet (ctxDelete st key) key = none := by
  unfold ctxGet ctxDelete
  have hnone : (st.ctx.filter fun kv => !(kv.1 == key)).find?
      (fun kv => kv.1 == key) = none := by
    rw [List.find?_eq_none]
    intro kv hkv
    have hmem := List.mem_filter.mp hkv
    simpa using hmem.2
  rw [hnone]
  rfl

/-- C3: processing a proposal by approve grows the plan by exactly the
proposed items and increments the plan version by exactly one, while reject
leaves the plan and its version unchanged; exactly one of the two outcomes
holds for each, and in both cases the proposal key is deleted so a subsequent
read fails. -/
theorem approve_or_reject_consumes_proposal
    (st : SwarmState) (caller proposer reason : String) (items : List PlanItem)
    (hc : swarmCoordinator st = some caller)
    (hp : ctxGet st (proposalKey proposer) = some (.vitems items)) :
    (approvePlan st caller proposer =
        .ok (applyApprove st caller proposer, items.length, st.planVersion + 1) ∧
     approveOutcome st (applyApprove st caller proposer) items.length ∧
     ¬ rejectOutcome st (applyApprove st caller proposer) ∧
     (applyApprove st caller proposer).plan = st.plan ++ items ∧
     ctxGet (applyApprove st caller proposer) (proposalKey proposer) = none) ∧
    (rejectPlan st caller proposer reason =
        .ok (applyReject st caller proposer reason, reason) ∧
     rejectOutcome st (applyReject st caller proposer reason) ∧
     ¬ approveOutcome st (applyReject st caller proposer reason) items.length ∧
     ctxGet (applyReject st caller proposer reason) (proposalKey proposer) = none) := by
  have happ : approvePlan st caller proposer =
      .ok ({ ctxDelete st (proposalKey proposer) with
               plan := st.plan ++ items, planVersion := st.planVersion + 1 },
           items.length, st.planVersion + 1) := by
    unfold approvePlan
    rw [if_pos hc, hp]
  have happly : applyApprove st caller proposer =
      { ctxDelete st (proposalKey proposer) with
          plan := st.plan ++ items, planVersion := st.planVersion + 1 } := by
    unfold applyApprove
    rw [happ]
  have hrej : rejectPlan st caller proposer reason =
      .ok (ctxDelete st (proposalKey proposer), reason) := by
    unfold rejectPlan
    rw [if_pos hc, hp]
  have hrapply : applyReject st caller proposer reason =
      ctxDelete st (proposalKey proposer) := by
    unfold applyReject
    rw [hrej]
  constructor
  · refine ⟨by rw [happ, happly], ?_, ?_, ?_, ?_⟩
    · constructor
      · rw [happly]
        simp [List.length_append]
      · rw [happly]
    · intro hout
      have hv := hout.2
      rw [happly] at hv
      simp at hv
    · rw [happly]
    · rw [happly]
      exact ctxGet_ctxDelete st (proposalKey proposer)
  · refine ⟨by rw [hrej, hrapply], ?_, ?_, ?_⟩
    · constructor
      · rw [hrapply]
        rfl
      · rw [hrapply]
        rfl
    · intro hout
      have hv := hout.2
      rw [hrapply] at hv
      simp [ctxDelete] at hv
    · rw [hrapply]
      exact ctxGet_ctxDelete st (proposalKey proposer)

theorem approve_or_reject_consumes_proposal_witness :
    (approvePlan ⟨["a", "b"], [], 0,
        [("plan_proposal:b", CtxValue.vitems [⟨"1", "x", "p", "n"⟩])]⟩ "a" "b" =
        .ok (applyApprove ⟨["a", "b"], [], 0,
          [("plan_proposal:b", CtxValue.vitems [⟨"1", "x", "p", "n"⟩])]⟩ "a" "b",
          ([⟨"1", "x", "p", "n"⟩] : List PlanItem).length, 0 + 1) ∧
     approveOutcome ⟨["a", "b"], [], 0,
        [("plan_proposal:b", CtxValue.vitems [⟨"1", "x", "p", "n"⟩])]⟩
       (applyApprove ⟨["a", "b"], [], 0,
         [("plan_proposal:b", CtxValue.vitems [⟨"1", "x", "p", "n"⟩])]⟩ "a" "b")
       ([⟨"1", "x", "p", "n"⟩] : List PlanItem).length ∧
     ¬ rejectOutcome ⟨["a", "b"], [], 0,
        [("plan_proposal:b", CtxValue.vitems [⟨"1", "x", "p", "n"⟩])]⟩
       (applyApprove ⟨["a", "b"], [], 0,
         [("plan_proposal:b", CtxValue.vitems [⟨"1", "x", "p", "n"⟩])]⟩ "a" "b") ∧
     (applyApprove ⟨["a", "b"], [], 0,
        [("plan_proposal:b", CtxValue.vitems [⟨"1", "x", "p", "n"⟩])]⟩ "a" "b").plan =
       [] ++ [⟨"1", "x", "p", "n"⟩] ∧
     ctxGet (applyApprove ⟨["a", "b"], [], 0,
        [("plan_proposal:b", CtxValue.vitems [⟨"1", "x", "p", "n"⟩])]⟩ "a" "b")
       (proposalKey "b") = none) ∧
    (rejectPlan ⟨["a", "b"], [], 0,
        [("plan_proposal:b", CtxValue.vitems [⟨"1", "x", "p", "n"⟩])]⟩ "a" "b" "no" =
        .ok (applyReject ⟨["a", "b"], [], 0,
          [("plan_proposal:b", CtxValue.vitems [⟨"1", "x", "p", "n"⟩])]⟩ "a" "b" "no",
          "no") ∧
     rejectOutcome ⟨["a", "b"], [], 0,
        [("plan_proposal:b", CtxValue.vitems [⟨"1", "x", "p", "n"⟩])]⟩
       (applyReject ⟨["a", "b"], [], 0,
         [("plan_proposal:b", CtxValue.vitems [⟨"1", "x", "p", "n"⟩])]⟩ "a" "b" "no") ∧
     ¬ approveOutcome ⟨["a", "b"], [], 0,
        [("plan_proposal:b", CtxValue.vitems [⟨"1", "x", "p", "n"⟩])]⟩
       (applyReject ⟨["a", "b"], [], 0,
         [("plan_proposal:b", CtxValue.vitems [⟨"1", "x", "p", "n"⟩])]⟩ "a" "b" "no")
       ([⟨"1", "x", "p", "n"⟩] : List PlanItem).length ∧
     ctxGet (applyReject ⟨["a", "b"], [], 0,
        [("plan_proposal:b", CtxValue.vitems [⟨"1", "x", "p", "n"⟩])]⟩ "a" "b" "no")
       (proposalKey "b") = none) :=
  approve_or_reject_consumes_proposal
    ⟨["a", "b"], [], 0, [("plan_proposal:b", CtxValue.vitems [⟨"1", "x", "p", "n"⟩])]⟩
    "a" "b" "no" [⟨"1", "x", "p", "n"⟩] (by decide) (by decide)

/-- C6: a session that is not the coordinator of its swarm cannot approve or
reject plans: both calls fail with NotCoordinator and leave the swarm plan
and plan version (indeed the whole state) unchanged. -/
theorem non_coordinator_cannot_mutate_plan
    (st : SwarmState) (caller proposer reason : String)
    (hnc : swarmCoordinator st ≠ some caller) :
    approvePlan st caller proposer = .error .NotCoordinator ∧
    rejectPlan st caller proposer reason = .error .NotCoordinator ∧
    applyApprove st caller proposer = st ∧
    applyReject st caller proposer reason = st := by
  have ha : approvePlan st caller proposer = .error .NotCoordinator := by
    unfold approvePlan
    rw [if_neg hnc]
  have hr : rejectPlan st caller proposer reason = .error .NotCoordinator := by
    unfold rejectPlan
    rw [if_neg hnc]
  refine ⟨ha, hr, ?_, ?_⟩
  · unfold applyApprove
    rw [ha]
  · unfold applyReject
    rw [hr]

theorem non_coordinator_cannot_mutate_plan_witness :
    approvePlan ⟨["a", "b"], [], 0,
        [("plan_proposal:a", CtxValue.vitems [⟨"2", "y", "p", "n"⟩])]⟩ "b" "a" =
      .error .NotCoordinator ∧
    rejectPlan ⟨["a", "b"], [], 0,
        [("plan_proposal:a", CtxValue.vitems [⟨"2", "y", "p", "n"⟩])]⟩ "b" "a" "bad" =
      .error .NotCoordinator ∧
    applyApprove ⟨["a", "b"], [], 0,
        [("plan_proposal:a", CtxValue.vitems [⟨"2", "y", "p", "n"⟩])]⟩ "b" "a" =
      ⟨["a", "b"], [], 0, [("plan_proposal:a", CtxValue.vitems [⟨"2", "y", "p", "n"⟩])]⟩ ∧
    applyReject ⟨["a", "b"], [], 0,
        [("plan_proposal:a", CtxValue.vitems [⟨"2", "y", "p", "n"⟩])]⟩ "b" "a" "bad" =
      ⟨["a", "b"], [], 0, [("plan_proposal:a", CtxValue.vitems [⟨"2", "y", "p", "n"⟩])]⟩ :=
  non_coordinator_cannot_mutate_plan
    ⟨["a", "b"], [], 0, [("plan_proposal:a", CtxValue.vitems [⟨"2", "y", "p", "n"⟩])]⟩
    "b" "a" "bad" (by decide)

/-- C7: a direct message whose recipient is not a current member of the
sender's swarm — including entirely unknown session identifiers — fails with
NotInSwarm and delivers nothing to anyone. -/
theorem dm_to_non_member_fails
    (st : ServerState) (sender recipient body : String) (s : Session)
    (hs : findSession st sender = some s)
    (hr : recipient ∉ membersOf st s.swarm) :
    dm st sender recipient body = .error .NotInSwarm ∧
    dmDeliveries st sender recipient body = [] := by
  have hdm : dm st sender recipient body = .error .NotInSwarm := by
    unfold dm
    rw [hs]
    dsimp only
    rw [if_neg hr]
  refine ⟨hdm, ?_⟩
  unfold dmDeliveries
  rw [hdm]

theorem dm_to_non_member_fails_witness :
    dm ⟨[⟨"a", "sw"⟩]⟩ "a" "nonexistent_session_12345" "hi" =
      .error .NotInSwarm ∧
    dmDeliveries ⟨[⟨"a", "sw"⟩]⟩ "a" "nonexistent_session_12345" "hi" = [] :=
  dm_to_non_member_fails ⟨[⟨"a", "sw"⟩]⟩ "a" "nonexistent_session_12345" "hi"
    ⟨"a", "sw"⟩ (by decide) (by decide)

/-! ## Helper lemmas: swarm id derivation -/

theorem findGitRoot_self (roots : List (List String)) (r : List String)
    (hr : r ∈ roots) : findGitRoot roots r = some r := by
  rw [findGitRoot, if_pos hr]

theorem findGitRoot_append (roots : List (List String)) (r : List String)
    (hr : r ∈ roots) :
    ∀ q : List String,
      (∀ j, j ≤ q.length → 0 < j → r ++ q.take j ∉ roots) →
      findGitRoot roots (r ++ q) = some r := by
  intro q
  induction q using List.reverseRecOn with
  | nil =>
      intro _
      rw [List.append_nil]
      exact findGitRoot_self roots r hr
  | append_singleton q' a ih =>
      intro hnest
      have hmem : r ++ (q' ++ [a]) ∉ roots := by
        have hfull := hnest (q' ++ [a]).length (le_refl _) (by simp)
        rwa [List.take_length] at hfull
      have hne : r ++ (q' ++ [a]) ≠ [] := by simp
      rw [findGitRoot, if_neg hmem, dif_neg hne]
      have hdrop : (r ++ (q' ++ [a])).dropLast = r ++ q' := by
        rw [← List.append_assoc]
        exact List.dropLast_concat ..
      rw [hdrop]
      refine ih (fun j hj hj0 => ?_)
      have h2 := hnest j (by simp only [List.length_append, List.length_singleton]; omega) hj0
      rwa [List.take_append_of_le_length hj] at h2

theorem findGitRoot_none_take (roots : List (List String)) :
    ∀ p : List String, findGitRoot roots p = none →
      ∀ j, j ≤ p.length → p.take j ∉ roots := by
  intro p
  induction p using List.reverseRecOn with
  | nil =>
      intro hnone j _
      have hmem : ([] : List String) ∉ roots := by
        intro hmem
        rw [findGitRoot, if_pos hmem] at hnone
        exact absurd hnone (by simp)
      simpa [List.take_nil] using hmem
  | append_singleton q a ih =>
      intro hnone j hj
      by_cases hmem : (q ++ [a]) ∈ roots
      · rw [findGitRoot, if_pos hmem] at hnone
        exact absurd hnone (by simp)
      · have hne : q ++ [a] ≠ [] := by simp
        rw [findGitRoot, if_neg hmem, dif_neg hne] at hnone
        have hdrop : (q ++ [a]).dropLast = q := List.dropLast_concat ..
        rw [hdrop] at hnone
        rcases Nat.lt_or_ge j (q.length + 1) with hlt | hge
        · have hjq : j ≤ q.length := by omega
          rw [List.take_append_of_le_length hjq]
          exact ih hnone j hjq
        · have hj_eq : j = (q ++ [a]).length := by
            simp only [List.length_append, List.length_singleton] at hj ⊢
            omega
          rw [hj_eq, List.take_length]
          exact hmem

/-- C8: swarm_id_for is deterministic — the same unmodified path always
yields the same id; a repository root and a working-copy subdirectory of it
resolve to the same id; and a directory with no enclosing git root is marked
not a git repository with a derived id containing no ".git" path component. -/
theorem swarm_id_deterministic_and_non_git
    (roots : List (List String)) (r q p : List String)
    (hr : r ∈ roots)
    (hnest : ∀ j, j ≤ q.length → 0 < j → r ++ q.take j ∉ roots)
    (hnone : findGitRoot roots p = none)
    (hwf : ∀ i (hi : i < p.length), p[i] = ".git" → p.take i ∈ roots) :
    (∀ (roots2 : List (List String)) (x : List String),
        swarmIdFor roots2 x = swarmIdFor roots2 x) ∧
    swarmIdFor roots (r ++ q) = swarmIdFor roots r ∧
    (swarmIdFor roots p).2 = false ∧
    ".git" ∉ swarmIdComponents (swarmIdFor roots p).1 := by
  have hfind : findGitRoot roots (r ++ q) = some r :=
    findGitRoot_append roots r hr q hnest
  have hfind_r : findGitRoot roots r = some r := findGitRoot_self roots r hr
  have hnogit : ".git" ∉ p := by
    intro hmem
    obtain ⟨⟨i, hi⟩, hget⟩ := List.mem_iff_get.mp hmem
    have htake : p.take i ∈ roots := hwf i hi hget
    exact findGitRoot_none_take roots p hnone i (le_of_lt hi) htake
  refine ⟨fun _ _ => rfl, ?_, ?_, ?_⟩
  · unfold swarmIdFor
    rw [hfind, hfind_r]
  · unfold swarmIdFor
    rw [hnone]
  · unfold swarmIdFor
    rw [hnone]
    dsimp only [swarmIdComponents]
    intro hmem
    unfold canonicalizePath at hmem
    exact hnogit (List.mem_filter.mp hmem).1

theorem swarm_id_deterministic_and_non_git_witness :
    (∀ (roots2 : List (List String)) (x : List String),
        swarmIdFor roots2 x = swarmIdFor roots2 x) ∧
    swarmIdFor [["repo"]] (["repo"] ++ ["sub"]) = swarmIdFor [["repo"]] ["repo"] ∧
    (swarmIdFor [["repo"]] ["tmp", "non-git-test"]).2 = false ∧
    ".git" ∉ swarmIdComponents (swarmIdFor [["repo"]] ["tmp", "non-git-test"]).1 :=
  swarm_id_deterministic_and_non_git [["repo"]] ["repo"] ["sub"]
    ["tmp", "non-git-test"] (by decide) (by decide)
    (by rw [findGitRoot]; simp; rw [findGitRoot]; simp; rw [findGitRoot]; simp)
    (by decide)

/-! ## Helper lemmas: conflict detection -/

theorem dedupFirst_nil : dedupFirst [] = [] := by
  rw [dedupFirst]

theorem mem_dedupFirst : ∀ (l : List String) (a : String), a ∈ dedupFirst l ↔ a ∈ l := by
  intro l
  induction l using dedupFirst.induct with
  | case1 =>
      intro a
      rw [dedupFirst_nil]
  | case2 x xs ih =>
      intro a
      rw [dedupFirst]
      simp only [List.mem_cons]
      constructor
      · rintro (rfl | h)
        · exact Or.inl rfl
        · exact Or.inr (List.mem_filter.mp ((ih a).mp h)).1
      · rintro (rfl | h)
        · exact Or.inl rfl
        · by_cases hx : a = x
          · exact Or.inl hx
          · exact Or.inr ((ih a).mpr (List.mem_filter.mpr ⟨h, by simp [hx]⟩))

theorem dedupFirst_nodup : ∀ l : List String, (dedupFirst l).Nodup := by
  intro l
  induction l using dedupFirst.induct with
  | case1 =>
      rw [dedupFirst_nil]
      exact List.nodup_nil
  | case2 x xs ih =>
      rw [dedupFirst]
      refine List.nodup_cons.mpr ⟨?_, ih⟩
      intro hmem
      have hx := (mem_dedupFirst _ x).mp hmem
      have hpred := (List.mem_filter.mp hx).2
      simp at hpred

theorem dedupFirst_singleton (a : String) : dedupFirst [a] = [a] := by
  rw [dedupFirst]
  rw [show ([] : List String).filter (fun y => !(y == a)) = [] from rfl]
  rw [dedupFirst_nil]

theorem dedupFirst_pair (a b : String) (hne : a ≠ b) : dedupFirst [a, b] = [a, b] := by
  rw [dedupFirst]
  have h1 : ([b].filter fun y => !(y == a)) = [b] := by
    simp [List.filter, beq_eq_false_iff_ne.mpr (Ne.symm hne)]
  rw [h1, dedupFirst_singleton]

theorem dedupFirst_const_le_one (s : String) : ∀ l : List String,
    (∀ x ∈ l, x = s) → (dedupFirst l).length ≤ 1 := by
  intro l hall
  cases l with
  | nil =>
      rw [dedupFirst_nil]
      simp
  | cons x xs =>
      rw [dedupFirst]
      have hx : x = s := hall x (List.mem_cons_self x xs)
      have hfil : (xs.filter fun y => !(y == x)) = [] := by
        rw [List.filter_eq_nil_iff]
        intro y hy
        have hy_eq : y = s := hall y (List.mem_cons_of_mem x hy)
        simp [hy_eq, hx]
      rw [hfil, dedupFirst_nil]
      simp

theorem filterMap_path_not_mem
    (F : String → Option ConflictGroup)
    (hF : ∀ x g, F x = some g → g.path = x) (p : String) :
    ∀ P : List String, p ∉ P →
      (P.filterMap F).filter (fun g => g.path == p) = [] := by
  intro P
  induction P with
  | nil => intro _; rfl
  | cons x xs ih =>
      intro hnot
      rw [List.filterMap_cons]
      cases hFx : F x with
      | none => exact ih (fun h => hnot (List.mem_cons_of_mem x h))
      | some g =>
          rw [List.filter_cons]
          have hne : (g.path == p) = false := by
            rw [hF x g hFx]
            exact beq_eq_false_iff_ne.mpr
              (fun h => hnot (h ▸ List.mem_cons_self x xs))
          simp only [hne, Bool.false_eq_true, if_false]
          exact ih (fun h => hnot (List.mem_cons_of_mem x h))

theorem filterMap_path_mem
    (F : String → Option ConflictGroup)
    (hF : ∀ x g, F x = some g → g.path = x) (p : String) :
    ∀ P : List String, P.Nodup → p ∈ P →
      (P.filterMap F).filter (fun g => g.path == p) = (F p).toList := by
  intro P
  induction P with
  | nil =>
      intro _ h
      simp at h
  | cons x xs ih =>
      intro hnd hmem
      have hnd2 := List.nodup_cons.mp hnd
      rw [List.filterMap_cons]
      by_cases hxp : x = p
      · subst hxp
        have hnot : x ∉ xs := hnd2.1
        cases hFx : F x with
        | none =>
            simpa using filterMap_path_not_mem F hF x xs hnot
        | some g =>
            rw [List.filter_cons]
            have heq : (g.path == x) = true := by
              rw [hF x g hFx]
              exact beq_self_eq_true x
            simp only [heq, if_true]
            rw [filterMap_path_not_mem F hF x xs hnot]
            rfl
      · have hmem2 : p ∈ xs := by
          rcases List.mem_cons.mp hmem with h | h
          · exact absurd h.symm hxp
          · exact h
        cases hFx : F x with
        | none => exact ih hnd2.2 hmem2
        | some g =>
            rw [List.filter_cons]
            have hne : (g.path == p) = false := by
              rw [hF x g hFx]
              exact beq_eq_false_iff_ne.mpr hxp
            simp only [hne, Bool.false_eq_true, if_false]
            exact ih hnd2.2 hmem2

/-- C9: when exactly two touches of a normalized path exist and they come
from two distinct sessions, the conflicts query returns exactly one conflict
group for that path, carrying the full ordered access history (both touches,
both sessions); and no conflict group is returned for a path all of whose
touches come from a single session. -/
theorem conflicts_group_per_contested_path
    (norm : String → String) (ts : List TouchRecord) (p q s : String)
    (t1 t2 : TouchRecord)
    (hp : touchesFor norm ts p = [t1, t2])
    (hsess : t1.session ≠ t2.session)
    (hq : ∀ t ∈ ts, norm t.path = q → t.session = s) :
    (conflictsOf norm ts).filter (fun g => g.path == p) = [⟨p, [t1, t2]⟩] ∧
    t1.session ∈ sessionsOf [t1, t2] ∧
    t2.session ∈ sessionsOf [t1, t2] ∧
    (∀ g ∈ conflictsOf norm ts, g.path ≠ q) := by
  have hF : ∀ x g, conflictGroupFor norm ts x = some g → g.path = x := by
    intro x g hx
    unfold conflictGroupFor at hx
    by_cases hcond : 2 ≤ (sessionsOf (touchesFor norm ts x)).length
    · rw [if_pos hcond] at hx
      cases hx
      rfl
    · rw [if_neg hcond] at hx
      exact absurd hx (by simp)
  have ht1 : t1 ∈ ts ∧ norm t1.path = p := by
    have hmem : t1 ∈ touchesFor norm ts p := by
      rw [hp]
      exact List.mem_cons_self t1 [t2]
    have hmf := List.mem_filter.mp hmem
    exact ⟨hmf.1, by simpa using hmf.2⟩
  have hmemP : p ∈ dedupFirst (ts.map fun t => norm t.path) := by
    rw [mem_dedupFirst]
    exact List.mem_map.mpr ⟨t1, ht1.1, ht1.2⟩
  have hsessions : sessionsOf [t1, t2] = [t1.session, t2.session] := by
    unfold sessionsOf
    simp only [List.map_cons, List.map_nil]
    exact dedupFirst_pair t1.session t2.session hsess
  have hFp : conflictGroupFor norm ts p = some ⟨p, [t1, t2]⟩ := by
    unfold conflictGroupFor
    rw [hp, hsessions]
    simp
  refine ⟨?_, ?_, ?_, ?_⟩
  · rw [show conflictsOf norm ts =
      (dedupFirst (ts.map fun t => norm t.path)).filterMap (conflictGroupFor norm ts)
      from rfl]
    rw [filterMap_path_mem (conflictGroupFor norm ts) hF p _
      (dedupFirst_nodup _) hmemP, hFp]
    rfl
  · rw [hsessions]
    exact List.mem_cons_self _ _
  · rw [hsessions]
    exact List.mem_cons_of_mem _ (List.mem_cons_self _ _)
  · intro g hg hgq
    obtain ⟨x, hx_mem, hx_eq⟩ := List.mem_filterMap.mp hg
    have hxq : x = q := by
      rw [← hF x g hx_eq, hgq]
    rw [hxq] at hx_eq
    unfold conflictGroupFor at hx_eq
    by_cases hcond : 2 ≤ (sessionsOf (touchesFor norm ts q)).length
    · have hall : ∀ y ∈ (touchesFor norm ts q).map TouchRecord.session, y = s := by
        intro y hy
        obtain ⟨t, ht_mem, rfl⟩ := List.mem_map.mp hy
        have hmf := List.mem_filter.mp ht_mem
        exact hq t hmf.1 (by simpa using hmf.2)
      have hle := dedupFirst_const_le_one s _ hall
      unfold sessionsOf at hcond
      omega
    · rw [if_neg hcond] at hx_eq
      exact absurd hx_eq (by simp)

theorem conflicts_group_per_contested_path_witness :
    (conflictsOf (fun x => x)
        [⟨"s1", "/a", 0, "read"⟩, ⟨"s2", "/a", 1, "write"⟩, ⟨"s1", "/b", 2, "read"⟩]).filter
        (fun g => g.path == "/a") =
      [⟨"/a", [⟨"s1", "/a", 0, "read"⟩, ⟨"s2", "/a", 1, "write"⟩]⟩] ∧
    TouchRecord.session ⟨"s1", "/a", 0, "read"⟩ ∈
      sessionsOf [⟨"s1", "/a", 0, "read"⟩, ⟨"s2", "/a", 1, "write"⟩] ∧
    TouchRecord.session ⟨"s2", "/a", 1, "write"⟩ ∈
      sessionsOf [⟨"s1", "/a", 0, "read"⟩, ⟨"s2", "/a", 1, "write"⟩] ∧
    (∀ g ∈ conflictsOf (fun x => x)
        [⟨"s1", "/a", 0, "read"⟩, ⟨"s2", "/a", 1, "write"⟩, ⟨"s1", "/b", 2, "read"⟩],
      g.path ≠ "/b") :=
  conflicts_group_per_contested_path (fun x => x)
    [⟨"s1", "/a", 0, "read"⟩, ⟨"s2", "/a", 1, "write"⟩, ⟨"s1", "/b", 2, "read"⟩]
    "/a" "/b" "s1" ⟨"s1", "/a", 0, "read"⟩ ⟨"s2", "/a", 1, "write"⟩
    (by decide) (by decide) (by decide)

/-- C10: a successful create_session debug response has ok=true and an output
object whose session_id key holds the newly created session's identifier;
friendly_name is optional, and the client scripts fall back to the first 12
characters — a prefix — of the session_id when it is absent. -/
theorem create_session_response_shape
    (st : ServerState) (sid sw : String) (fn : Option String)
    (st2 : ServerState) (resp : DebugResponse)
    (hrun : handleCreateSession st sid sw fn = (st2, resp)) :
    resp.ok = true ∧
    jlookup resp.output "session_id" = some (.jstr sid) ∧
    st2 = createSession st sid sw ∧
    st2.sessions.getLast? = some ⟨sid, sw⟩ ∧
    (clientSessionName sid none).2.data <+: sid.data ∧
    (∀ f, (clientSessionName sid (some f)).2 = f) := by
  cases hrun
  refine ⟨rfl, ?_, rfl, ?_, ?_, fun f => rfl⟩
  · unfold jlookup
    simp [List.find?]
  · unfold createSession
    exact List.getLast?_concat _
  · exact ⟨sid.data.drop 12, List.take_append_drop 12 sid.data⟩

theorem create_session_response_shape_witness :
    (handleCreateSession ⟨[]⟩ "sess_abcdef123456" "sw" none).2.ok = true ∧
    jlookup (handleCreateSession ⟨[]⟩ "sess_abcdef123456" "sw" none).2.output
      "session_id" = some (.jstr "sess_abcdef123456") ∧
    (handleCreateSession ⟨[]⟩ "sess_abcdef123456" "sw" none).1 =
      createSession ⟨[]⟩ "sess_abcdef123456" "sw" ∧
    (handleCreateSession ⟨[]⟩ "sess_abcdef123456" "sw" none).1.sessions.getLast? =
      some ⟨"sess_abcdef123456", "sw"⟩ ∧
    (clientSessionName "sess_abcdef123456" none).2.data <+:
      "sess_abcdef123456".data ∧
    (∀ f, (clientSessionName "sess_abcdef123456" (some f)).2 = f) :=
  create_session_response_shape ⟨[]⟩ "sess_abcdef123456" "sw" none
    (handleCreateSession ⟨[]⟩ "sess_abcdef123456" "sw" none).1
    (handleCreateSession ⟨[]⟩ "sess_abcdef123456" "sw" none).2 rfl
